import Mathlib

/-!
Verification of a Reliable Ordered Data Transfer (RODT) client/server pair.

The development shallowly embeds the protocol core of the repository:
the packet codec (packet.py), the message fragmenter and the sender's
acknowledgement-intake loop (client.py), and the receiver's slotting,
cumulative-acknowledgement and reassembly logic (server.py).

Bytes are modelled as natural numbers below 256; byte strings as
lists of naturals.  The IEEE-754 double timestamp is modelled by its
8-byte little-endian encoding, which is exactly what the Python
struct module writes and reads back verbatim.
-/

/-- Packet model mirroring the Packet class of packet.py: a sequence /
acknowledgement number (an unsigned 32-bit value on the wire), the
end-of-stream flag ack_msg, a timestamp (kept as its 8 IEEE-754 bytes,
little-endian), and the payload bytes. -/
structure Packet where
  seq_num : Nat
  ack_msg : Bool
  timestamp : List Nat
  data : List Nat
deriving DecidableEq

/-- Encoding of a Python bool by struct format character for a one-byte
boolean: 1 for True, 0 for False. -/
def boolByte (b : Bool) : Nat := if b then 1 else 0

/-- Little-endian 4-byte encoding of an unsigned 32-bit integer, as the
struct module writes a native unsigned int. -/
def le32 (n : Nat) : List Nat :=
  [n % 256, n / 256 % 256, n / 65536 % 256, n / 16777216 % 256]

/-- Little-endian decoding of the first four bytes of a buffer. -/
def de32 (b : List Nat) : Nat :=
  b.getD 0 0 + 256 * b.getD 1 0 + 65536 * b.getD 2 0 + 16777216 * b.getD 3 0

namespace Packet

/-- Size in bytes of the packed header (struct.calcsize of the header
format: 4-byte unsigned int, 1-byte bool, 3 alignment padding bytes,
8-byte double). -/
def HEADER_SIZE : Nat := 16

/-- Packet.pack of packet.py: the 16-byte header (sequence number,
flag byte, three zero padding bytes, timestamp bytes) followed by the
raw payload. -/
def pack (p : Packet) : List Nat :=
  le32 p.seq_num ++ [boolByte p.ack_msg] ++ [0, 0, 0] ++ p.timestamp ++ p.data

/-- Packet.unpack of packet.py: struct.unpack on the first HEADER_SIZE
bytes, raising (modelled as none) when fewer than HEADER_SIZE bytes are
available, and treating every byte past the header as payload.  The flag
byte decodes to True exactly when it is nonzero. -/
def unpack (buf : List Nat) : Option Packet :=
  if HEADER_SIZE ≤ buf.length then
    some ⟨de32 buf, buf.getD 4 0 != 0, (buf.drop 8).take 8, buf.drop HEADER_SIZE⟩
  else none

end Packet

/-- Predicate on the 8 little-endian bytes of an IEEE-754 double: the
value is a NaN exactly when the 11 exponent bits are all ones and the
52 mantissa bits are not all zero.  Used only to state claims about
timestamps; the codec itself never inspects these bytes. -/
def isNaNBytes (t : List Nat) : Bool :=
  (t.getD 7 0 % 128 == 127) && (t.getD 6 0 / 16 == 15) &&
    !((t.getD 6 0 % 16 == 0) && (t.getD 5 0 == 0) && (t.getD 4 0 == 0) &&
      (t.getD 3 0 == 0) && (t.getD 2 0 == 0) && (t.getD 1 0 == 0) &&
      (t.getD 0 0 == 0))

/-- Timestamp bytes of the IEEE-754 double 0.0 (a finite value). -/
def tsZero : List Nat := [0, 0, 0, 0, 0, 0, 0, 0]

/-- Timestamp bytes of an IEEE-754 quiet NaN (0x7FF8000000000000,
little-endian). -/
def tsNaN : List Nat := [0, 0, 0, 0, 0, 0, 248, 127]

/-- Concrete 16-byte buffer whose header carries sequence number 0, flag
byte 0, zero padding and a NaN timestamp, and which has no payload. -/
def nanBuf : List Nat := [0, 0, 0, 0, 0, 0, 0, 0, 0, 0, 0, 0, 0, 0, 248, 127]

/-- Slice loop of split_message_into_fragments in client.py: the list
of consecutive slices of at most M bytes, as produced by the list
comprehension over range(0, len(msg), M).  The M = 0 branch is never
reached by the claims (Python range would raise there). -/
def chunks (M : Nat) (l : List Nat) : List (List Nat) :=
  if hM : M = 0 then []
  else if hl : l = [] then []
  else l.take M :: chunks M (l.drop M)
termination_by l.length
decreasing_by
  simp only [List.length_drop]
  have : 0 < l.length := List.length_pos.mpr hl
  omega

/-- split_message_into_fragments of client.py: slice the message into
fragments of at most M bytes, then right-pad the LAST fragment with
ASCII spaces (0x20 = 32) up to M.  Reading fragments[-1] of an empty
fragment list raises IndexError in the source; that failure is modelled
as none. -/
def split_message_into_fragments (msg : List Nat) (M : Nat) :
    Option (List (List Nat)) :=
  match (chunks M msg).getLast? with
  | none => none
  | some last =>
    if last.length < M then
      some ((chunks M msg).dropLast ++ [last ++ List.replicate (M - last.length) 32])
    else some (chunks M msg)

/-- Insertion step of handle_acknowledgement in server.py: append when
the sequence number equals the list length, extend with absent (None)
cells and append when it is larger, fill the cell when it is smaller
and currently absent, and otherwise leave the list unchanged. -/
def Server.insertPacket (packets : List (Option Packet)) (p : Packet) :
    List (Option Packet) :=
  if p.seq_num = packets.length then packets ++ [some p]
  else if p.seq_num > packets.length then
    (packets ++ List.replicate (p.seq_num - packets.length) none) ++ [some p]
  else if packets.getD p.seq_num none = none then
    packets.set p.seq_num (some p)
  else packets

/-- Final scan of handle_acknowledgement in server.py: enumerate the
slots and return i - 1 at the first absent cell, or length - 1 when no
cell is absent (so -1 for the empty list). -/
def Server.ackScan : List (Option Packet) → Int
  | [] => -1
  | none :: _ => -1
  | some _ :: rest => 1 + Server.ackScan rest

/-- handle_acknowledgement of server.py: insert the received packet
into the slot list and return the updated list together with the
highest contiguous acknowledged sequence number. -/
def Server.handle_acknowledgement (packets : List (Option Packet)) (p : Packet) :
    List (Option Packet) × Int :=
  (Server.insertPacket packets p, Server.ackScan (Server.insertPacket packets p))

/-- One iteration of the receive loop of handle_client in server.py,
for one successfully unpacked packet: slot the packet, and send an
acknowledgement packet (built as Packet(ack_number, ack_msg=True),
empty payload, the receiver's current clock ts) exactly when the
computed acknowledgement number is nonnegative. -/
def Server.receiverStep (ts : List Nat) (slots : List (Option Packet)) (p : Packet) :
    List (Option Packet) × List Packet :=
  let res := Server.handle_acknowledgement slots p
  (res.1, if 0 ≤ res.2 then [⟨res.2.toNat, true, ts, []⟩] else [])

/-- Receive loop of handle_client in server.py over a stream of
unpacked packets: each packet is slotted and acknowledged in turn; the
loop breaks AFTER processing a packet whose ack_msg flag is set,
leaving later stream packets unread.  Returns the final slot list and
the acknowledgement packets sent, in order. -/
def Server.handle_client_loop (ts : List Nat) :
    List Packet → List (Option Packet) → List (Option Packet) × List Packet
  | [], slots => (slots, [])
  | p :: rest, slots =>
    let step := Server.receiverStep ts slots p
    if p.ack_msg then step
    else
      let r := Server.handle_client_loop ts rest step.1
      (r.1, step.2 ++ r.2)

/-- Post-loop reassembly of handle_client in server.py: joining the
data of every slot raises AttributeError (modelled as none) when some
slot is still None; otherwise it returns the concatenation of the
payloads in slot order. -/
def Server.reassemble (packets : List (Option Packet)) : Option (List Nat) :=
  if packets.any (fun o => o.isNone) then none
  else
    some ((packets.map (fun o => match o with
      | some p => p.data
      | none => [])).flatten)

/-- One receiver session of server.py: run the receive loop from empty
slots over the stream, then reassemble the message. -/
def Server.serve (ts : List Nat) (stream : List Packet) : Option (List Nat) :=
  Server.reassemble (Server.handle_client_loop ts stream []).1

/-- Claim-side predicate (from the words of the specification): slots
0..k of the list are all filled. -/
def FilledUpTo (slots : List (Option Packet)) (k : Nat) : Prop :=
  ∀ i ≤ k, (slots.getD i none).isSome = true

/-- Initial value of the client's LAST_ACKNOWLEDGED global in
client.py: -1, meaning that no packet has been acknowledged yet. -/
def Client.LAST_ACKNOWLEDGED_init : Int := -1

/-- Update of LAST_ACKNOWLEDGED in handle_acknowledgement of
client.py: the incoming acknowledgement number (an unsigned sequence
number from the wire) replaces the current value only when it is
strictly greater. -/
def Client.updateLastAck (cur : Int) (a : Nat) : Int :=
  if (a : Int) > cur then a else cur

/-- Value of LAST_ACKNOWLEDGED after a sequence of acknowledgement
numbers has been delivered to the intake task, starting from the
initial -1. -/
def Client.lastAckAfter (acks : List Nat) : Int :=
  acks.foldl Client.updateLastAck Client.LAST_ACKNOWLEDGED_init

/-- handle_acknowledgement of client.py (the acknowledgement-intake
task), over the stream of acknowledgement numbers it successfully
unpacks: each iteration first checks, under the lock, whether
LAST_ACKNOWLEDGED equals final_seq, and if so sends the terminator
packet Packet(final_seq + 1, ack_msg=True, data=M spaces) and exits at
once; otherwise it reads the next acknowledgement (exiting when the
stream is exhausted) and raises LAST_ACKNOWLEDGED if the new number is
strictly greater.  Returns the terminator packets sent and the final
LAST_ACKNOWLEDGED value. -/
def Client.handle_acknowledgement (M : Nat) (ts : List Nat) (final_seq : Int) :
    Int → List Nat → List Packet × Int
  | la, [] =>
    if la = final_seq then
      ([⟨(final_seq + 1).toNat, true, ts, List.replicate M 32⟩], la)
    else ([], la)
  | la, a :: rest =>
    if la = final_seq then
      ([⟨(final_seq + 1).toNat, true, ts, List.replicate M 32⟩], la)
    else Client.handle_acknowledgement M ts final_seq (Client.updateLastAck la a) rest

/-- Whitespace stripping performed by Python's int() on its string
argument, restricted to the ASCII space padding used by the handshake
preamble. -/
def stripSpaces (s : List Char) : List Char :=
  ((s.dropWhile (fun c => c = ' ')).reverse.dropWhile (fun c => c = ' ')).reverse

/-- Value of a nonempty all-digit character list, as read by Python's
int(); none otherwise. -/
def digitsVal (cs : List Char) : Option Nat :=
  if cs = [] then none
  else if cs.all (fun c => c.isDigit) then
    some (cs.foldl (fun a c => 10 * a + (c.toNat - 48)) 0)
  else none

/-- Python's int() applied to the decoded handshake preamble: strip
the space padding, accept an optional sign followed by decimal digits,
and fail (ValueError, modelled as none) otherwise. -/
def pythonIntOf (s : List Char) : Option Int :=
  match stripSpaces s with
  | '-' :: rest => (digitsVal rest).map (fun n => -(n : Int))
  | '+' :: rest => (digitsVal rest).map (fun n => (n : Int))
  | rest => (digitsVal rest).map (fun n => (n : Int))

/-- Handshake decision of initiate_connection in client.py: abort
(none) when the received preamble does not parse as an integer or
parses to 0 (the falsy check "if not max_payload_size"); accept any
other parsed integer as the negotiated maximum payload size and
proceed (some) into fragmentation and transmission. -/
def Client.initiate_decision (preamble : List Char) : Option Int :=
  match pythonIntOf preamble with
  | none => none
  | some m => if m = 0 then none else some m

/-- Concrete data packet used by witnesses: sequence number 0, flag
clear, payload one byte. -/
def pktA : Packet := ⟨0, false, tsZero, [65]⟩

/-- Concrete end-of-stream packet used by the C1 counterexample:
ack_msg set, with a two-byte payload. -/
def pktTerm : Packet := ⟨0, true, tsZero, [88, 89]⟩

/-- Concrete end-of-stream packet at sequence number 1, following one
data packet. -/
def pktTerm2 : Packet := ⟨1, true, tsZero, [90]⟩

/-- C3 helper: byte-level little-endian round trip for unsigned 32-bit
values. -/
theorem de32_le32 (n : Nat) (h : n < 4294967296) : de32 (le32 n) = n := by
  simp only [le32, de32, List.getD, List.get?, Option.getD_some]
  omega

/-- C3 helper: de32 reads only the first four bytes, so it factors
through any list extending a 4-byte prefix. -/
theorem de32_append (l r : List Nat) (h : l.length = 4) :
    de32 (l ++ r) = de32 l := by
  unfold de32
  rw [List.getD_append _ _ _ _ (by omega), List.getD_append _ _ _ _ (by omega),
    List.getD_append _ _ _ _ (by omega), List.getD_append _ _ _ _ (by omega)]

/-- C3: for every packet whose sequence number is representable as an
unsigned 32-bit integer and whose timestamp is an 8-byte IEEE-754
encoding, unpacking the bytes produced by packing yields a packet with
the same seq_num, ack_msg, timestamp and payload bytes. -/
theorem C3_pack_unpack_roundtrip (p : Packet)
    (hseq : p.seq_num < 4294967296) (hts : p.timestamp.length = 8) :
    Packet.unpack (Packet.pack p) = some p := by
  obtain ⟨s, a, t, d⟩ := p
  simp only at hseq hts
  have hhead : Packet.pack ⟨s, a, t, d⟩ =
      (le32 s ++ [boolByte a] ++ [0, 0, 0]) ++ (t ++ d) := by
    simp [Packet.pack]
  have hlen4 : (le32 s).length = 4 := by simp [le32]
  have hlen8 : (le32 s ++ [boolByte a] ++ [0, 0, 0]).length = 8 := by
    simp [le32]
  have h16 : Packet.HEADER_SIZE ≤ (Packet.pack ⟨s, a, t, d⟩).length := by
    rw [hhead]
    simp [Packet.HEADER_SIZE, le32, hts]
  rw [Packet.unpack, if_pos h16]
  have hde : de32 (Packet.pack ⟨s, a, t, d⟩) = s := by
    have hassoc : Packet.pack ⟨s, a, t, d⟩ =
        le32 s ++ ([boolByte a] ++ [0, 0, 0] ++ (t ++ d)) := by
      simp [Packet.pack]
    rw [hassoc, de32_append _ _ hlen4, de32_le32 s hseq]
  have hflag : (Packet.pack ⟨s, a, t, d⟩).getD 4 0 = boolByte a := by
    have hassoc : Packet.pack ⟨s, a, t, d⟩ =
        le32 s ++ ([boolByte a] ++ ([0, 0, 0] ++ (t ++ d))) := by
      simp [Packet.pack]
    rw [hassoc, List.getD_append_right _ _ _ _ (by omega), hlen4]
    simp [List.getD]
  have hdrop8 : (Packet.pack ⟨s, a, t, d⟩).drop 8 = t ++ d := by
    rw [hhead, List.drop_left' hlen8]
  have hts' : ((Packet.pack ⟨s, a, t, d⟩).drop 8).take 8 = t := by
    rw [hdrop8, List.take_left' hts]
  have hdata : (Packet.pack ⟨s, a, t, d⟩).drop Packet.HEADER_SIZE = d := by
    have hassoc : Packet.pack ⟨s, a, t, d⟩ =
        ((le32 s ++ [boolByte a] ++ [0, 0, 0]) ++ t) ++ d := by
      simp [Packet.pack]
    rw [hassoc, Packet.HEADER_SIZE,
      List.drop_left' (by simp [le32, hts] : ((le32 s ++ [boolByte a] ++ [0, 0, 0]) ++ t).length = 16)]
  have hflag' : ((Packet.pack ⟨s, a, t, d⟩).getD 4 0 != 0) = a := by
    rw [hflag]
    cases a <;> simp [boolByte]
  rw [hde, hflag', hts', hdata]

/-- C3 witness: the round trip evaluated at a concrete packet. -/
theorem C3_witness :
    Packet.unpack (Packet.pack ⟨5, true, tsZero, [1, 2, 3]⟩) =
      some ⟨5, true, tsZero, [1, 2, 3]⟩ :=
  C3_pack_unpack_roundtrip ⟨5, true, tsZero, [1, 2, 3]⟩ (by decide) (by decide)

/-- C5 counterexample: a 16-byte buffer whose timestamp bytes encode an
IEEE-754 NaN is unpacked successfully by the source's unpack (which only
fails on buffers shorter than the header), refuting "unpack fails ...
when ... the decoded timestamp is NaN". -/
theorem C5_counterexample :
    isNaNBytes tsNaN = true ∧ Packet.unpack nanBuf = some ⟨0, false, tsNaN, []⟩ := by
  exact ⟨by decide, by decide⟩

/-- C5 (amended): unpack fails exactly when the buffer is shorter than
the 16-byte header — a NaN timestamp does not cause failure — and on
every buffer of at least 16 bytes it succeeds, treating all bytes past
the header as payload. -/
theorem C5_amended_unpack_failure (buf : List Nat) :
    (Packet.unpack buf = none ↔ buf.length < 16) ∧
      (16 ≤ buf.length →
        ∃ p, Packet.unpack buf = some p ∧ p.data = buf.drop 16) := by
  unfold Packet.unpack Packet.HEADER_SIZE
  constructor
  · by_cases h : 16 ≤ buf.length
    · simp only [if_pos h]
      constructor
      · intro hc
        exact absurd hc (by simp)
      · intro hlt
        omega
    · simp only [if_neg h]
      constructor
      · intro _
        omega
      · intro _
        trivial
  · intro h
    simp only [if_pos h]
    exact ⟨_, rfl, rfl⟩

/-- C5 witness: a concrete 17-byte buffer is unpacked successfully with
its seventeenth byte as the payload. -/
theorem C5_witness :
    ∃ p, Packet.unpack (nanBuf ++ [7]) = some p ∧
      p.data = (nanBuf ++ [7]).drop 16 :=
  (C5_amended_unpack_failure (nanBuf ++ [7])).2 (by decide)

/-- C1 counterexample: a session consisting of one end-of-stream packet
with payload bytes [88, 89] reassembles to exactly those bytes — the
receiver inserts the terminator into the slot sequence before breaking,
so the terminator's payload does contribute to the returned message,
refuting the claim. -/
theorem C1_counterexample : Server.serve tsZero [pktTerm] = some [88, 89] := by
  decide

/-- C1 (amended): on an incoming packet whose end-of-stream flag is
set, the receiver's session loop breaks at once (later stream packets
are never read), but only AFTER handing the packet to the slotting
operation: the final slot sequence is the result of inserting that
packet, so its payload contributes to the reassembled message whenever
its slot is newly filled. -/
theorem C1_amended_break_after_insert (ts : List Nat) (p : Packet)
    (rest : List Packet) (slots : List (Option Packet)) (h : p.ack_msg = true) :
    Server.handle_client_loop ts (p :: rest) slots =
      (Server.insertPacket slots p, (Server.receiverStep ts slots p).2) := by
  simp [Server.handle_client_loop, h, Server.receiverStep,
    Server.handle_acknowledgement]

/-- C1 witness: the amended break-after-insert behaviour evaluated on a
concrete terminator packet with a pending rest of stream. -/
theorem C1_witness :
    Server.handle_client_loop tsZero [pktTerm, pktA] [] =
      (Server.insertPacket [] pktTerm, (Server.receiverStep tsZero [] pktTerm).2) :=
  C1_amended_break_after_insert tsZero pktTerm [pktA] [] (by decide)

/-- C6 counterexample: processing a data packet that yields cumulative
acknowledgement 0 makes the receiver emit an acknowledgement packet
whose end-of-stream flag is TRUE (the source builds it with
ack_msg=True), refuting the claim that the flag is false. -/
theorem C6_counterexample :
    (Server.receiverStep tsZero [] pktA).2 = [⟨0, true, tsZero, []⟩] := by
  decide

/-- C6 (amended): after each received packet, when the computed
cumulative acknowledgement A is nonnegative the receiver sends exactly
one acknowledgement packet — a 16-byte frame with empty payload,
carrying A as its sequence number, with the end-of-stream flag TRUE —
and when A is negative it sends nothing. -/
theorem C6_amended_ack_emission (ts : List Nat) (slots : List (Option Packet))
    (p : Packet) (hts : ts.length = 8) :
    (0 ≤ (Server.handle_acknowledgement slots p).2 →
      (Server.receiverStep ts slots p).2 =
        [⟨(Server.handle_acknowledgement slots p).2.toNat, true, ts, []⟩] ∧
      ∀ q ∈ (Server.receiverStep ts slots p).2,
        (Packet.pack q).length = 16 ∧ q.data = []) ∧
    ((Server.handle_acknowledgement slots p).2 < 0 →
      (Server.receiverStep ts slots p).2 = []) := by
  constructor
  · intro h
    constructor
    · simp [Server.receiverStep, h]
    · intro q hq
      simp [Server.receiverStep, h] at hq
      subst hq
      constructor
      · simp [Packet.pack, le32, hts]
      · rfl
  · intro h
    have h' : ¬ (0 ≤ (Server.handle_acknowledgement slots p).2) := by omega
    simp [Server.receiverStep, h']

/-- C6 witness: the amended acknowledgement emission evaluated on a
concrete data packet that produces cumulative acknowledgement 0. -/
theorem C6_witness :
    (0 ≤ (Server.handle_acknowledgement [] pktA).2 →
      (Server.receiverStep tsZero [] pktA).2 =
        [⟨(Server.handle_acknowledgement [] pktA).2.toNat, true, tsZero, []⟩] ∧
      ∀ q ∈ (Server.receiverStep tsZero [] pktA).2,
        (Packet.pack q).length = 16 ∧ q.data = []) ∧
    ((Server.handle_acknowledgement [] pktA).2 < 0 →
      (Server.receiverStep tsZero [] pktA).2 = []) :=
  C6_amended_ack_emission tsZero [] pktA (by decide)

/-- C4 helper: the scan of server.py's handle_acknowledgement never
returns less than -1. -/
theorem ackScan_ge_neg_one (slots : List (Option Packet)) :
    -1 ≤ Server.ackScan slots := by
  induction slots with
  | nil => simp [Server.ackScan]
  | cons o rest ih =>
    cases o with
    | none => simp [Server.ackScan]
    | some p =>
      simp only [Server.ackScan]
      omega

/-- C4 helper: slots 0..k are all filled exactly when k does not exceed
the value returned by the scan. -/
theorem filledUpTo_iff_le_ackScan (slots : List (Option Packet)) :
    ∀ k : Nat, FilledUpTo slots k ↔ (k : Int) ≤ Server.ackScan slots := by
  induction slots with
  | nil =>
    intro k
    constructor
    · intro h
      have h0 := h 0 (Nat.zero_le k)
      simp [List.getD] at h0
    · intro h
      simp only [Server.ackScan] at h
      omega
  | cons o rest ih =>
    cases o with
    | none =>
      intro k
      constructor
      · intro h
        have h0 := h 0 (Nat.zero_le k)
        simp [List.getD] at h0
      · intro h
        simp only [Server.ackScan] at h
        omega
    | some p =>
      intro k
      cases k with
      | zero =>
        constructor
        · intro _
          have := ackScan_ge_neg_one rest
          simp only [Server.ackScan]
          omega
        · intro _ i hi
          have : i = 0 := Nat.le_zero.mp hi
          subst this
          simp [List.getD]
      | succ k =>
        constructor
        · intro h
          have h' : FilledUpTo rest k := by
            intro i hi
            have := h (i + 1) (by omega)
            simpa [List.getD_cons_succ] using this
          have := (ih k).mp h'
          simp only [Server.ackScan]
          push_cast
          omega
        · intro h i hi
          cases i with
          | zero => simp [List.getD]
          | succ i =>
            have h' : (k : Int) ≤ Server.ackScan rest := by
              simp only [Server.ackScan] at h
              push_cast at h
              omega
            have := (ih k).mpr h' i (by omega)
            simpa [List.getD_cons_succ] using this

/-- C4: for every slot sequence and every inserted packet, the value
returned by the receiver's handle_acknowledgement is either -1 with
slot 0 not filled, or the largest s such that slots 0..s of the
post-insertion sequence are all filled. -/
theorem C4_cumulative_ack (slots : List (Option Packet)) (p : Packet) :
    ((Server.handle_acknowledgement slots p).2 = -1 ∧
      ¬ FilledUpTo (Server.handle_acknowledgement slots p).1 0) ∨
    (∃ m : Nat, (Server.handle_acknowledgement slots p).2 = (m : Int) ∧
      FilledUpTo (Server.handle_acknowledgement slots p).1 m ∧
      ∀ k, FilledUpTo (Server.handle_acknowledgement slots p).1 k → k ≤ m) := by
  have hpair1 : (Server.handle_acknowledgement slots p).1 =
      Server.insertPacket slots p := rfl
  have hpair2 : (Server.handle_acknowledgement slots p).2 =
      Server.ackScan (Server.insertPacket slots p) := rfl
  rw [hpair1, hpair2]
  by_cases h : (0 : Int) ≤ Server.ackScan (Server.insertPacket slots p)
  · right
    refine ⟨(Server.ackScan (Server.insertPacket slots p)).toNat, by omega, ?_, ?_⟩
    · exact (filledUpTo_iff_le_ackScan _ _).mpr (by omega)
    · intro k hk
      have := (filledUpTo_iff_le_ackScan _ k).mp hk
      omega
  · left
    have hge := ackScan_ge_neg_one (Server.insertPacket slots p)
    refine ⟨by omega, ?_⟩
    intro hf
    have := (filledUpTo_iff_le_ackScan _ 0).mp hf
    omega

/-- C7 helper: reassembly fails when some slot is absent. -/
theorem reassemble_none_of_absent (slots : List (Option Packet))
    (h : ∃ o ∈ slots, o = none) : Server.reassemble slots = none := by
  obtain ⟨o, ho, rfl⟩ := h
  unfold Server.reassemble
  rw [if_pos]
  exact List.any_eq_true.mpr ⟨none, ho, rfl⟩

/-- C7 helper: with every slot present, the payload projection agrees
with mapping the data field over the packets in slot order. -/
theorem map_data_of_all_some :
    ∀ slots : List (Option Packet), (∀ o ∈ slots, o.isSome = true) →
      slots.map (fun o => match o with | some p => p.data | none => []) =
        (slots.filterMap id).map Packet.data := by
  intro slots
  induction slots with
  | nil => intro _; rfl
  | cons o rest ih =>
    intro h
    cases o with
    | none =>
      have := h none (List.mem_cons_self _ _)
      simp at this
    | some p =>
      simp only [List.map_cons, List.filterMap_cons, id]
      rw [ih (fun o ho => h o (List.mem_cons_of_mem _ ho))]

/-- C7 helper: reassembly of a fully filled slot list returns the
concatenation of the payloads in slot order. -/
theorem reassemble_all_some (slots : List (Option Packet))
    (h : ∀ o ∈ slots, o.isSome = true) :
    Server.reassemble slots =
      some (((slots.filterMap id).map Packet.data).flatten) := by
  unfold Server.reassemble
  rw [if_neg, map_data_of_all_some slots h]
  intro hc
  obtain ⟨o, ho, hn⟩ := List.any_eq_true.mp hc
  have := h o ho
  cases o with
  | none => simp at this
  | some p => simp at hn

/-- C7: a receiver session whose final slot sequence still has an
absent slot fails (the reassembly raises), and on clean termination it
returns the concatenation, in sequence order, of the payload bytes of
every slot. -/
theorem C7_serve_reassembly (ts : List Nat) (stream : List Packet) :
    ((∃ o ∈ (Server.handle_client_loop ts stream []).1, o = none) →
      Server.serve ts stream = none) ∧
    ((∀ o ∈ (Server.handle_client_loop ts stream []).1, o.isSome = true) →
      Server.serve ts stream =
        some ((((Server.handle_client_loop ts stream []).1.filterMap id).map
          Packet.data).flatten)) := by
  constructor
  · intro h
    exact reassemble_none_of_absent _ h
  · intro h
    exact reassemble_all_some _ h

/-- C7 witness: a complete two-packet session (one data packet, then
the terminator) reassembles to the concatenation of both payloads. -/
theorem C7_witness :
    Server.serve tsZero [pktA, pktTerm2] =
      some ((((Server.handle_client_loop tsZero [pktA, pktTerm2] []).1.filterMap
        id).map Packet.data).flatten) :=
  (C7_serve_reassembly tsZero [pktA, pktTerm2]).2 (by decide)

/-- C8 helper: one update of LAST_ACKNOWLEDGED never decreases it. -/
theorem updateLastAck_le (cur : Int) (a : Nat) :
    cur ≤ Client.updateLastAck cur a := by
  unfold Client.updateLastAck
  split <;> omega

/-- C8 helper: folding updates over any acknowledgement sequence never
decreases the running value. -/
theorem le_foldl_updateLastAck (more : List Nat) :
    ∀ la : Int, la ≤ more.foldl Client.updateLastAck la := by
  induction more with
  | nil =>
    intro la
    simp
  | cons a rest ih =>
    intro la
    calc la ≤ Client.updateLastAck la a := updateLastAck_le la a
      _ ≤ rest.foldl Client.updateLastAck (Client.updateLastAck la a) := ih _

/-- C8: the sender's shared last-ack value starts at -1, is monotone
non-decreasing under every sequence of delivered acknowledgement
numbers, is raised by an arriving number only when strictly greater
than the current value, and is left unchanged by any number less than
or equal to it. -/
theorem C8_last_ack_monotone :
    Client.LAST_ACKNOWLEDGED_init = -1 ∧
    (∀ acks more : List Nat,
      Client.lastAckAfter acks ≤ Client.lastAckAfter (acks ++ more)) ∧
    (∀ (cur : Int) (a : Nat), (a : Int) ≤ cur →
      Client.updateLastAck cur a = cur) ∧
    (∀ (cur : Int) (a : Nat), cur < (a : Int) →
      Client.updateLastAck cur a = (a : Int)) := by
  refine ⟨rfl, ?_, ?_, ?_⟩
  · intro acks more
    unfold Client.lastAckAfter
    rw [List.foldl_append]
    exact le_foldl_updateLastAck more _
  · intro cur a h
    unfold Client.updateLastAck
    rw [if_neg (by omega)]
  · intro cur a h
    unfold Client.updateLastAck
    rw [if_pos (by omega)]

/-- C9: over any run of the acknowledgement-intake task, at most one
terminator packet is ever transmitted; every transmitted terminator
carries sequence number final_seq + 1, the end-of-stream flag set, and
the space-padded payload of length M; and the moment the shared
last-ack value equals final_seq, the task transmits exactly that one
terminator and exits at once, reading no further acknowledgements and
not waiting for an acknowledgement of the terminator. -/
theorem C9_terminator (M : Nat) (ts : List Nat) (final_seq : Int)
    (la : Int) (acks : List Nat) :
    (Client.handle_acknowledgement M ts final_seq la acks).1.length ≤ 1 ∧
    (∀ q ∈ (Client.handle_acknowledgement M ts final_seq la acks).1,
      q.seq_num = (final_seq + 1).toNat ∧ q.ack_msg = true ∧
      q.data = List.replicate M 32 ∧ q.data.length = M) ∧
    (la = final_seq →
      Client.handle_acknowledgement M ts final_seq la acks =
        ([⟨(final_seq + 1).toNat, true, ts, List.replicate M 32⟩], la)) := by
  induction acks generalizing la with
  | nil =>
    by_cases hla : la = final_seq
    · subst hla
      refine ⟨?_, ?_, ?_⟩
      · simp [Client.handle_acknowledgement]
      · intro q hq
        simp [Client.handle_acknowledgement] at hq
        subst hq
        refine ⟨rfl, rfl, rfl, ?_⟩
        simp
      · intro _
        simp [Client.handle_acknowledgement]
    · refine ⟨?_, ?_, ?_⟩
      · simp [Client.handle_acknowledgement, hla]
      · intro q hq
        simp [Client.handle_acknowledgement, hla] at hq
      · intro h
        exact absurd h hla
  | cons a rest ih =>
    by_cases hla : la = final_seq
    · subst hla
      refine ⟨?_, ?_, ?_⟩
      · simp [Client.handle_acknowledgement]
      · intro q hq
        simp [Client.handle_acknowledgement] at hq
        subst hq
        refine ⟨rfl, rfl, rfl, ?_⟩
        simp
      · intro _
        simp [Client.handle_acknowledgement]
    · have heq : Client.handle_acknowledgement M ts final_seq la (a :: rest) =
          Client.handle_acknowledgement M ts final_seq
            (Client.updateLastAck la a) rest := by
        simp [Client.handle_acknowledgement, hla]
      rw [heq]
      refine ⟨(ih _).1, (ih _).2.1, ?_⟩
      intro h
      exact absurd h hla

/-- C9 witness: with the shared last-ack already equal to final_seq 1
and payload size 2, the intake task sends exactly the terminator with
sequence number 2, flag set and two-space payload, and exits with the
remaining acknowledgements unread. -/
theorem C9_witness :
    Client.handle_acknowledgement 2 tsZero 1 1 [7, 9] =
      ([⟨(1 + 1 : Int).toNat, true, tsZero, List.replicate 2 32⟩], 1) :=
  (C9_terminator 2 tsZero 1 1 [7, 9]).2.2 rfl

/-- C10: the handshake decision of initiate_connection aborts exactly
when the preamble fails to parse as an integer or parses to zero;
every other parsed integer is accepted as the negotiated maximum
payload size, including negative ones, as the two evaluated examples
show (a preamble of "-5" is accepted as -5, one of "0" aborts). -/
theorem C10_handshake_zero_only (s : List Char) :
    (Client.initiate_decision s = none ↔
      (pythonIntOf s = none ∨ pythonIntOf s = some 0)) ∧
    (∀ m : Int, pythonIntOf s = some m → m ≠ 0 →
      Client.initiate_decision s = some m) ∧
    Client.initiate_decision ['-', '5', ' '] = some (-5) ∧
    Client.initiate_decision ['0', ' ', ' '] = none := by
  refine ⟨?_, ?_, by decide, by decide⟩
  · unfold Client.initiate_decision
    cases h : pythonIntOf s with
    | none => simp
    | some m =>
      by_cases hm : m = 0
      · subst hm
        simp
      · simp [hm]
  · intro m hm hm0
    unfold Client.initiate_decision
    rw [hm]
    simp [hm0]

/-- C2 helper: for positive M the slicing loop yields the empty
fragment list exactly on the empty message. -/
theorem chunks_eq_nil_iff (M : Nat) (hM : M ≠ 0) (l : List Nat) :
    chunks M l = [] ↔ l = [] := by
  rw [chunks]
  by_cases he : l = [] <;> simp [hM, he]

/-- C2 helper: on a nonempty message the slicing loop peels one slice
of at most M bytes and recurses on the remainder. -/
theorem chunks_cons (M : Nat) (hM : M ≠ 0) (l : List Nat) (he : l ≠ []) :
    chunks M l = l.take M :: chunks M (l.drop M) := by
  rw [chunks]
  rw [dif_neg hM, dif_neg he]

/-- C2 helper: concatenating the slices restores the message. -/
theorem chunks_flatten_aux (M : Nat) (hM : M ≠ 0) :
    ∀ n (l : List Nat), l.length ≤ n → (chunks M l).flatten = l := by
  intro n
  induction n with
  | zero =>
    intro l h
    have hl : l = [] := List.length_eq_zero.mp (Nat.le_zero.mp h)
    subst hl
    rw [(chunks_eq_nil_iff M hM []).mpr rfl]
    rfl
  | succ n ih =>
    intro l hl
    by_cases he : l = []
    · subst he
      rw [(chunks_eq_nil_iff M hM []).mpr rfl]
      rfl
    · rw [chunks_cons M hM l he, List.flatten_cons]
      rw [ih (l.drop M) ?_]
      · exact List.take_append_drop M l
      · simp only [List.length_drop]
        have : 0 < l.length := List.length_pos.mpr he
        omega

/-- C2 helper: the flattened fragment list equals the message. -/
theorem chunks_flatten (M : Nat) (hM : M ≠ 0) (l : List Nat) :
    (chunks M l).flatten = l :=
  chunks_flatten_aux M hM l.length l le_rfl

/-- C2 helper: the slicing loop produces exactly the ceiling of
length / M slices. -/
theorem chunks_length_aux (M : Nat) (hM : M ≠ 0) :
    ∀ n (l : List Nat), l.length ≤ n →
      (chunks M l).length = (l.length + M - 1) / M := by
  intro n
  induction n with
  | zero =>
    intro l h
    have hl : l = [] := List.length_eq_zero.mp (Nat.le_zero.mp h)
    subst hl
    rw [(chunks_eq_nil_iff M hM []).mpr rfl]
    simp only [List.length_nil, Nat.zero_add]
    exact (Nat.div_eq_of_lt (by omega)).symm
  | succ n ih =>
    intro l hl
    by_cases he : l = []
    · subst he
      rw [(chunks_eq_nil_iff M hM []).mpr rfl]
      simp only [List.length_nil, Nat.zero_add]
      exact (Nat.div_eq_of_lt (by omega)).symm
    · have hpos : 0 < l.length := List.length_pos.mpr he
      rw [chunks_cons M hM l he, List.length_cons]
      rw [ih (l.drop M) (by simp only [List.length_drop]; omega)]
      simp only [List.length_drop]
      by_cases hle : l.length ≤ M
      · have h1 : l.length - M = 0 := by omega
        rw [h1, Nat.zero_add, Nat.div_eq_of_lt (by omega), Nat.zero_add]
        exact (Nat.div_eq_of_lt_le (by omega) (by omega)).symm
      · have h2 : l.length - M + M - 1 = l.length - 1 := by omega
        have h3 : l.length + M - 1 = l.length - 1 + M := by omega
        rw [h2, h3, Nat.add_div_right _ (Nat.pos_of_ne_zero hM)]

/-- C2 helper: every slice has at most M bytes, and every slice except
possibly the last has exactly M bytes. -/
theorem chunks_sizes_aux (M : Nat) (hM : M ≠ 0) :
    ∀ n (l : List Nat), l.length ≤ n →
      (∀ c ∈ chunks M l, c.length ≤ M) ∧
      (∀ c ∈ (chunks M l).dropLast, c.length = M) := by
  intro n
  induction n with
  | zero =>
    intro l h
    have hl : l = [] := List.length_eq_zero.mp (Nat.le_zero.mp h)
    subst hl
    rw [(chunks_eq_nil_iff M hM []).mpr rfl]
    simp
  | succ n ih =>
    intro l hl
    by_cases he : l = []
    · subst he
      rw [(chunks_eq_nil_iff M hM []).mpr rfl]
      simp
    · have hpos : 0 < l.length := List.length_pos.mpr he
      have hdl : (l.drop M).length ≤ n := by
        simp only [List.length_drop]
        omega
      obtain ⟨ih1, ih2⟩ := ih (l.drop M) hdl
      rw [chunks_cons M hM l he]
      constructor
      · intro c hc
        rcases List.mem_cons.mp hc with hc | hc
        · subst hc
          simp only [List.length_take]
          exact Nat.min_le_left _ _
        · exact ih1 c hc
      · intro c hc
        by_cases hrec : chunks M (l.drop M) = []
        · rw [hrec] at hc
          simp at hc
        · rw [List.dropLast_cons_of_ne_nil hrec] at hc
          rcases List.mem_cons.mp hc with hc | hc
          · subst hc
            have hne2 : l.drop M ≠ [] := by
              intro hcontra
              exact hrec ((chunks_eq_nil_iff M hM _).mpr hcontra)
            have hMlt : M < l.length := by
              by_contra hcon
              push_neg at hcon
              exact hne2 (List.drop_eq_nil_of_le hcon)
            simp only [List.length_take]
            omega
          · exact ih2 c hc

/-- C2: the fragmenter crashes on the empty message (reading the last
element of an empty slice list, modelled as none) instead of producing
a single all-space fragment; on every nonempty message and positive M
it produces exactly ceil(len/M) fragments, each of length exactly M,
whose in-order concatenation is the message followed by space padding. -/
theorem C2_fragmenter :
    split_message_into_fragments [] 4 = none ∧
    (∀ (msg : List Nat) (M : Nat), 0 < M → msg ≠ [] →
      ∃ frags, split_message_into_fragments msg M = some frags ∧
        frags.length = (msg.length + M - 1) / M ∧
        (∀ f ∈ frags, f.length = M) ∧
        (∃ k, frags.flatten = msg ++ List.replicate k 32)) := by
  constructor
  · unfold split_message_into_fragments
    rw [(chunks_eq_nil_iff 4 (by omega) []).mpr rfl]
    rfl
  · intro msg M hM hmsg
    have hM' : M ≠ 0 := by omega
    have hne : chunks M msg ≠ [] := by
      intro hcontra
      exact hmsg ((chunks_eq_nil_iff M hM' msg).mp hcontra)
    have hlast : (chunks M msg).getLast? = some ((chunks M msg).getLast hne) :=
      List.getLast?_eq_getLast _ hne
    have hmem : (chunks M msg).getLast hne ∈ chunks M msg := List.getLast_mem hne
    obtain ⟨hle_all, hdrop_all⟩ := chunks_sizes_aux M hM' msg.length msg le_rfl
    have hlen_cs : (chunks M msg).length = (msg.length + M - 1) / M :=
      chunks_length_aux M hM' msg.length msg le_rfl
    have hflat : (chunks M msg).flatten = msg := chunks_flatten M hM' msg
    have hsplit : (chunks M msg).dropLast ++ [(chunks M msg).getLast hne] =
        chunks M msg := List.dropLast_append_getLast hne
    have hle_last : ((chunks M msg).getLast hne).length ≤ M := hle_all _ hmem
    have hm2 : msg =
        (chunks M msg).dropLast.flatten ++ (chunks M msg).getLast hne := by
      conv_lhs => rw [← hflat, ← hsplit]
      simp
    unfold split_message_into_fragments
    split
    · rename_i heq
      rw [heq] at hlast
      exact absurd hlast (by simp)
    · rename_i last heq
      rw [hlast] at heq
      have hlast_eq' : last = (chunks M msg).getLast hne := by
        injection heq with h
        exact h.symm
      subst hlast_eq'
      by_cases hlt : ((chunks M msg).getLast hne).length < M
      · rw [if_pos hlt]
        refine ⟨_, rfl, ?_, ?_, ?_⟩
        · rw [List.length_append, List.length_dropLast, ← hlen_cs]
          have : 0 < (chunks M msg).length := List.length_pos.mpr hne
          simp only [List.length_singleton]
          omega
        · intro f hf
          rcases List.mem_append.mp hf with hf | hf
          · exact hdrop_all f hf
          · rw [List.mem_singleton] at hf
            subst hf
            rw [List.length_append, List.length_replicate]
            omega
        · refine ⟨M - ((chunks M msg).getLast hne).length, ?_⟩
          rw [List.flatten_append]
          simp only [List.flatten_cons, List.flatten_nil, List.append_nil]
          rw [← List.append_assoc, ← hm2]
      · rw [if_neg hlt]
        have hlast_eq : ((chunks M msg).getLast hne).length = M := by omega
        refine ⟨chunks M msg, rfl, hlen_cs, ?_, ⟨0, by simp [hflat]⟩⟩
        intro f hf
        rw [← hsplit] at hf
        rcases List.mem_append.mp hf with hf | hf
        · exact hdrop_all f hf
        · rw [List.mem_singleton] at hf
          subst hf
          exact hlast_eq
